import Mathlib

set_option maxRecDepth 100000

/-!
Verification development for the wordninja-enhanced segmentation engine
(`src/wordninja_enhanced/wordninja.py`).

Modelling conventions of the shallow embedding:
* Python strings are `List Char`; `s[a:b]` is `listSlice s a b`; `str.lower()`
  is `toLowerList` (ASCII-adequate `Char.toLower`); `str.isdigit()` is
  `Char.isDigit`; the whitespace class of the split patterns is `isWs`.
* Word costs are floating point numbers in the source.  The literal `9e999`
  overflows to `inf`, and `float('inf')` is the initial minimum of
  `best_match`, so costs live in `WithTop ℤ` (`⊤` = `inf`); every finite
  float cost is modelled as an abstract integer, which is faithful for all
  order-and-addition reasoning the algorithms perform (`inf + c = inf`,
  `¬ (inf < inf)`, `¬ (inf < 1e100)`, …).
* The `while i > 0` backtracking loop of `_split` is embedded with explicit
  fuel returning `Option`; `none` corresponds to the loop failing to make
  progress (which we prove unreachable for models with `1 ≤ maxword`).
* Python's stable `sorted(..., key=lambda x: x[1])` is embedded as a stable
  insertion sort `sortByCost`; a stable sort's output is uniquely determined,
  so this agrees extensionally with the source.
* Out-of-range indexing (`s[i-1]`, `out[-1][0]`) is embedded totally with
  `getD`/`headD` defaults; the states that reach those reads are proved to
  be in range where it matters.
-/

namespace WordNinja

/-- Whitespace characters matched by the `\s` class of the compiled split
patterns, restricted to ASCII. -/
def isWs (c : Char) : Bool :=
  c == ' ' || c == '\t' || c == '\n' || c == '\r' || c == '\x0b' || c == '\x0c'

/-- Python `str.lower()`. -/
def toLowerList (s : List Char) : List Char := s.map Char.toLower

/-- Python slice `s[a:b]` for `0 ≤ a ≤ b`. -/
def listSlice (s : List Char) (a b : ℕ) : List Char := (s.drop a).take (b - a)

/-- Cost values: finite floats are abstracted as integers, `⊤` is `inf`
(the value of the source literal `9e999` and of `float('inf')`). -/
abbrev ECost := WithTop ℤ

/-- The state of a constructed `LanguageModel`: the word cost table
`_wordcost` (keys are lowercase words; `none` = absent), `_maxword`, and the
two spacing rule sets used by `rejoin`. -/
structure LanguageModel where
  wordcost : List Char → Option ℤ
  maxword : ℕ
  noSpaceBefore : List (List Char)
  noSpaceAfter : List (List Char)

/-- The cost of one candidate word: `self._wordcost.get(word)` followed by the
fallback `25` for unknown single characters and `9e999` (= `inf`) for longer
unknown substrings.  This logic appears verbatim in both `best_match`
(`_split`) and `_beam_search_on_chunk`. -/
def wordCostLookup (m : LanguageModel) (w : List Char) : ECost :=
  match m.wordcost w with
  | some c => (c : ECost)
  | none => if w.length = 1 then ((25 : ℤ) : ECost) else ⊤

/-- The total cost `c + word_cost` examined by `best_match i` for reversed
enumeration index `k` (candidate word length `k + 1`):
`c = cost[i - k - 1]` and the word is `s[i - k - 1 : i].lower()`. -/
def totalAt (m : LanguageModel) (s : List Char) (cost : List ECost) (i k : ℕ) : ECost :=
  cost.getD (i - k - 1) 0 + wordCostLookup m (toLowerList (listSlice s (i - k - 1) i))

/-- One iteration of the `for k, c in candidates` loop of `best_match`:
the running minimum is replaced only on a strictly smaller total cost. -/
def bmStep (m : LanguageModel) (s : List Char) (cost : List ECost) (i : ℕ)
    (acc : ECost × ℕ) (k : ℕ) : ECost × ℕ :=
  if totalAt m s cost i k < acc.1 then (totalAt m s cost i k, k + 1) else acc

/-- `best_match(i)` from `_split`: folds over the reversed window
`cost[max(0, i - maxword) : i]` (reversed enumeration indices
`k = 0, …, min i maxword - 1`), starting from `(float('inf'), 0)`,
returning `(match_cost, match_length)`. -/
def best_match (m : LanguageModel) (s : List Char) (cost : List ECost) (i : ℕ) : ECost × ℕ :=
  (List.range (min i m.maxword)).foldl (bmStep m s cost i) (⊤, 0)

/-- The forward pass of `_split`: `cost = [0]`, then
`cost.append(best_match(i).cost)` for `i = 1, …, n`. -/
def buildCostAux (m : LanguageModel) (s : List Char) : ℕ → List ECost
  | 0 => [0]
  | n + 1 => buildCostAux m s n ++ [(best_match m s (buildCostAux m s n) (n + 1)).1]

/-- The completed cost array of `_split` for the whole input. -/
def buildCost (m : LanguageModel) (s : List Char) : List ECost := buildCostAux m s s.length

/-- One iteration of the backtracking loop body of `_split` acting on the
emitted-token accumulator.  The Lean list holds the most recently emitted
token at its head (Python's `out[-1]`), so the final `reversed(out)` of the
source is the identity here.  Mirrors the source exactly: the merge rules are
skipped when the current token `s[i-k:i]` is a lone apostrophe; otherwise the
current token is prepended onto the previous token when that one is exactly
`'s` or when `s[i-1]` and the previous token's first character are both
digits. -/
def backStep (s : List Char) (i k : ℕ) (out : List (List Char)) : List (List Char) :=
  let t := listSlice s (i - k) i
  if t = ['\''] then t :: out
  else
    match out with
    | prev :: rest =>
      if prev = ['\'', 's'] ∨ ((s.getD (i - 1) ' ').isDigit ∧ (prev.headD ' ').isDigit) then
        (t ++ prev) :: rest
      else t :: prev :: rest
    | [] => [t]

/-- The `while i > 0` backtracking loop of `_split`, with fuel.  Each step
recomputes `best_match(i)`, applies the merge rules (`backStep`) and moves
`i ← i - k`.  `none` models the loop failing to terminate (only possible when
`best_match` returns `k = 0`, proved unreachable for `1 ≤ maxword`). -/
def backtrackAux (m : LanguageModel) (s : List Char) (cost : List ECost) :
    ℕ → ℕ → List (List Char) → Option (List (List Char))
  | _, 0, out => some out
  | 0, _ + 1, _ => none
  | fuel + 1, i + 1, out =>
    backtrackAux m s cost fuel (i + 1 - (best_match m s cost (i + 1)).2)
      (backStep s (i + 1) (best_match m s cost (i + 1)).2 out)

/-- `_split(s)`: build the cost array, then backtrack from `i = len(s)`. -/
def splitChunk (m : LanguageModel) (s : List Char) : Option (List (List Char)) :=
  backtrackAux m s (buildCost m s) s.length s.length []

/-- Instrumentation of the same backtracking loop recording the raw chosen
segments `s[i-k:i]` in left-to-right order, before any merge rule is
applied. -/
def segsAux (m : LanguageModel) (s : List Char) (cost : List ECost) :
    ℕ → ℕ → Option (List (List Char))
  | _, 0 => some []
  | 0, _ + 1 => none
  | fuel + 1, i + 1 =>
    (segsAux m s cost fuel (i + 1 - (best_match m s cost (i + 1)).2)).map
      (fun l => l ++ [listSlice s (i + 1 - (best_match m s cost (i + 1)).2) (i + 1)])

/-- The left-to-right sequence of raw segments chosen by the `_split`
dynamic program, before the merge/fusion step. -/
def bestSegs (m : LanguageModel) (s : List Char) : Option (List (List Char)) :=
  segsAux m s (buildCost m s) s.length s.length

/-- The merge rules of the backtracking loop, expressed on the token alone
(the last character of a nonempty token `s[i-k:i]` is `s[i-1]`): a lone
apostrophe is emitted as its own token with no merging; otherwise the token
is concatenated onto the previous token exactly when that one is `'s`, or
the current token ends in a digit and the previous one starts with one. -/
def mergeStepTok (t : List Char) (out : List (List Char)) : List (List Char) :=
  if t = ['\''] then t :: out
  else
    match out with
    | prev :: rest =>
      if prev = ['\'', 's'] ∨ ((t.getLastD ' ').isDigit ∧ (prev.headD ' ').isDigit) then
        (t ++ prev) :: rest
      else t :: prev :: rest
    | [] => [t]

/-- One character step of the run decomposition of the input.  The
accumulator is the alternating list `[text0, ws0, text1, ws1, …, textN]`
produced for the suffix already processed (texts at even positions, maximal
whitespace runs at odd positions; the outer texts may be empty, exactly like
`re.split`). -/
def runsStep (c : Char) (acc : List (List Char)) : List (List Char) :=
  if isWs c then
    match acc with
    | [] :: w :: rest => [] :: (c :: w) :: rest
    | _ => [] :: [c] :: acc
  else
    match acc with
    | t :: rest => (c :: t) :: rest
    | [] => [[c]]

/-- The alternating text/whitespace decomposition of the input:
even positions are `re.split(r"\s+", s)` and odd positions are
`re.findall(r"\s+", s)`, in order.  With the capturing pattern
`(\s+)` and the empty entries removed this is also the chunk list
consumed by `candidates`. -/
def pyRuns (s : List Char) : List (List Char) := s.foldr runsStep [[]]

/-- The body of `split`: run `_split` on every text part and re-insert each
whitespace delimiter verbatim between the corresponding results (the
reversed `insert(i + 1, [delimiter])` loop), then flatten, dropping empty
sublists. -/
def joinPartsM (m : LanguageModel) : List (List Char) → Option (List (List Char))
  | [] => some []
  | [t] => splitChunk m t
  | t :: w :: rest =>
    match splitChunk m t, joinPartsM m rest with
    | some a, some b => some (a ++ [w] ++ b)
    | _, _ => none

/-- `split(s)` of the source: decompose into whitespace/text runs, segment
each text run, and interleave the delimiters back. -/
def split (m : LanguageModel) (s : List Char) : Option (List (List Char)) :=
  joinPartsM m (pyRuns s)

/-- The loop body of `_post_process_candidate`: the accumulator holds the
processed tokens in reverse (head = `processed_split[-1]`). -/
def ppMerge (acc : List (List Char)) (token : List Char) : List (List Char) :=
  match acc with
  | prev :: rest =>
    if (token = ['\'', 's'] ∧ ¬ prev.getLastD ' ' = '\'') ∨
        (¬ token = [] ∧ ¬ prev = [] ∧ (token.headD ' ').isDigit ∧ (prev.getLastD ' ').isDigit) then
      (prev ++ token) :: rest
    else token :: prev :: rest
  | [] => [token]

/-- `_post_process_candidate(split)`: re-attach `'s` and adjoining digits in
a left-to-right pass over an already segmented candidate. -/
def post_process_candidate (split0 : List (List Char)) : List (List Char) :=
  match split0 with
  | [] => []
  | t0 :: rest => (rest.foldl ppMerge [t0]).reverse

/-- A beam entry: a list of tokens together with its cumulative cost. -/
abbrev Entry := List (List Char) × ECost

/-- Insertion of one entry into a cost-sorted list, stable: the entry goes
in front of the first element whose cost is not smaller. -/
def insertEntry (e : Entry) : List Entry → List Entry
  | [] => [e]
  | x :: xs => if x.2 < e.2 then x :: insertEntry e xs else e :: x :: xs

/-- Python's stable `sorted(entries, key=lambda x: x[1])`. -/
def sortByCost (l : List Entry) : List Entry := l.foldr insertEntry []

/-- One level of the per-chunk beam search: extend every retained partial
split at every start `j` in the window `[max(0, i - maxword), i)` by the word
`s_chunk[j:i]`, keep only extensions with `word_cost < 1e100`, then sort by
cost and keep the best `beam_width`. -/
def bsLevelStep (m : LanguageModel) (chunk : List Char) (beamWidth : ℕ)
    (dp : List (List Entry)) (i : ℕ) : List Entry :=
  let cands := (List.range' (i - m.maxword) (i - (i - m.maxword))).flatMap (fun j =>
    let word := listSlice chunk j i
    let wc := wordCostLookup m word
    if wc < (((10 : ℤ) ^ 100 : ℤ) : ECost) then
      (dp.getD j []).map (fun e => (e.1 ++ [word], e.2 + wc))
    else [])
  (sortByCost cands).take beamWidth

/-- The dp table of `_beam_search_on_chunk`: `dp[0] = [([], 0)]` and each
further level is built from all earlier ones. -/
def bsLevels (m : LanguageModel) (chunk : List Char) (beamWidth : ℕ) : ℕ → List (List Entry)
  | 0 => [[([], 0)]]
  | n + 1 =>
    bsLevels m chunk beamWidth n ++
      [bsLevelStep m chunk beamWidth (bsLevels m chunk beamWidth n) (n + 1)]

/-- `_beam_search_on_chunk(s_chunk, beam_width)` returns `dp[len(s_chunk)]`. -/
def beam_search_on_chunk (m : LanguageModel) (chunk : List Char) (beamWidth : ℕ) : List Entry :=
  (bsLevels m chunk beamWidth chunk.length).getD chunk.length []

/-- `fullmatch` of the whitespace pattern: a nonempty all-whitespace chunk. -/
def isWsRun (l : List Char) : Bool := !l.isEmpty && l.all isWs

/-- The chunk list of `candidates`: `re.split(r"(\s+)", s)` with empty
entries removed. -/
def chunksOf (s : List Char) : List (List Char) := (pyRuns s).filter (fun c => !c.isEmpty)

/-- The initial global beam `[([], 0)]` of `candidates`. -/
def candInit : List Entry := [([], 0)]

/-- Processing of one chunk by `candidates`: whitespace chunks are appended
verbatim to every beam entry; for other chunks the cross product with the
chunk's own beam-search results is formed (substituting
`[([chunk], 9e999)]` if that search returned nothing); in both cases the new
beam is sorted by cost and pruned to `beam_width`. -/
def candStep (m : LanguageModel) (beamWidth : ℕ) (beam : List Entry) (chunk : List Char) :
    List Entry :=
  let newBeam :=
    if isWsRun chunk then beam.map (fun e => (e.1 ++ [chunk], e.2))
    else
      let cc := beam_search_on_chunk m chunk beamWidth
      let cc := if cc.isEmpty then [([chunk], (⊤ : ECost))] else cc
      beam.flatMap (fun e => cc.map (fun c => (e.1 ++ c.1, e.2 + c.2)))
  (sortByCost newBeam).take beamWidth

/-- `candidates(s, top_n)`: lowercase the input, run the global beam over the
chunks with `beam_width = max(top_n, 10)`, post-process every surviving
split, and return the first `top_n`. -/
def candidates (m : LanguageModel) (s : List Char) (top_n : ℕ) : List (List (List Char)) :=
  let sl := toLowerList s
  let beamWidth := max top_n 10
  let beam := (chunksOf sl).foldl (candStep m beamWidth) candInit
  (beam.map (fun e => post_process_candidate e.1)).take top_n

/-- The body of the `for i, token in enumerate(tokens)` loop of `rejoin`:
append the token, toggle the quote flag on a literal double quote, and, when
a next token exists, append one space unless one of the spacing rules
forbids it. -/
def rejoinStep (m : LanguageModel) (tokens : List (List Char)) (n : ℕ)
    (acc : List (List Char) × Bool) (i : ℕ) : List (List Char) × Bool :=
  let token := tokens.getD i []
  let isOpening := token == ['"'] && !acc.2
  let parts := acc.1 ++ [token]
  let inq := if token == ['"'] then !acc.2 else acc.2
  if i < n - 1 then
    let next := tokens.getD (i + 1) []
    let addSpace := !(isOpening || (next == ['"'] && inq) ||
      m.noSpaceAfter.contains token || m.noSpaceBefore.contains next ||
      isWsRun token || isWsRun next)
    (if addSpace then parts ++ [[' ']] else parts, inq)
  else (parts, inq)

/-- The token-joining pass of `rejoin`, over an already produced token list:
`"".join(result_parts)` after the indexed loop, with the early `""` return
for an empty token list. -/
def rejoinTokens (m : LanguageModel) (tokens : List (List Char)) : List Char :=
  if tokens.isEmpty then []
  else (((List.range tokens.length).foldl (rejoinStep m tokens tokens.length) ([], false)).1).flatten

/-- `rejoin(text)`: split, then rejoin the tokens with the spacing rules. -/
def rejoin (m : LanguageModel) (s : List Char) : Option (List Char) :=
  (split m s).map (rejoinTokens m)

/-- Specification-side rejoiner, following the wording of the spec: walk the
token stream with the inside-double-quotes flag (initially false, toggled on
every literal double-quote token) and put exactly one space between two
consecutive tokens unless, tested in order: (1) the current token opens a
quoted span; (2) the next token closes the current quoted span; (3) the
current token is in `noSpaceAfter` or the next one in `noSpaceBefore`;
(4) either token is whitespace. -/
def specSpaceParts (m : LanguageModel) : List (List Char) → Bool → List (List Char)
  | [], _ => []
  | [t], _ => [t]
  | t :: next :: rest, inq =>
    let isOpening := t == ['"'] && !inq
    let inq2 := if t == ['"'] then !inq else inq
    let noSp :=
      if isOpening then true
      else if next == ['"'] && inq2 then true
      else if m.noSpaceAfter.contains t || m.noSpaceBefore.contains next then true
      else if isWsRun t || isWsRun next then true
      else false
    if noSp then t :: specSpaceParts m (next :: rest) inq2
    else t :: [' '] :: specSpaceParts m (next :: rest) inq2

/-- The word-list transformation performed by `LanguageModel.__init__`
before the cost table is built: blacklist removal, then the add-word
processing controlled by `add_to_top` and `overwrite`. -/
def processWords (words blacklist addWords : List (List Char)) (addToTop overwrite : Bool) :
    List (List Char) :=
  let words1 := if blacklist.isEmpty then words else words.filter (fun w => !blacklist.contains w)
  if addWords.isEmpty then words1
  else
    let lowerAdd := addWords.map toLowerList
    if overwrite then
      let words2 := words1.filter (fun w => !lowerAdd.contains w)
      if addToTop then lowerAdd ++ words2 else words2 ++ lowerAdd
    else
      let lowerAdd2 := lowerAdd.filter (fun w => !words1.contains w)
      if addToTop then lowerAdd2 ++ words1 else words1 ++ lowerAdd2

/-- The cost table comprehension
`dict((k, log((i+1) * log(len(words)))) for i, k in enumerate(words))`,
with `math.log` abstracted by `lg` on its positive domain: an argument `≤ 0`
raises `ValueError: math domain error`, exactly as in Python.  `total` is
`len(words)`. -/
def costEntries (lg : ℤ → ℤ) (total : ℕ) :
    ℕ → List (List Char) → Except (List Char) (List (List Char × ℤ))
  | _, [] => Except.ok []
  | i, w :: ws =>
    if (total : ℤ) ≤ 0 then Except.error "math domain error".toList
    else if ((i : ℤ) + 1) * lg (total : ℤ) ≤ 0 then Except.error "math domain error".toList
    else
      match costEntries lg total (i + 1) ws with
      | Except.ok rest => Except.ok ((w, lg (((i : ℤ) + 1) * lg (total : ℤ))) :: rest)
      | Except.error e => Except.error e

/-- `NO_SPACE_BEFORE_BASE` of the source. -/
def baseNoSpaceBefore : List (List Char) :=
  [['.'], [','], [';'], [':'], ['!'], ['?'], [')'], [']'], ['\x7d'], ['%'], ['\''], ['’'],
    ['s'], ['»'], ['›'], ['-']]

/-- `NO_SPACE_AFTER_BASE` of the source. -/
def baseNoSpaceAfter : List (List Char) :=
  [['('], ['['], ['\x7b'], ['«'], ['‹'], ['¡'], ['¿'], ['-'], ['$'], ['€'], ['£']]

/-- The model construction of `LanguageModel.__init__` after the word file
has been read and `processWords` applied: build the cost table (a Python
dict: on duplicate keys the last assignment wins), then
`maxword = max(len(x) for x in words)`, which raises on an empty sequence.
`lg` abstracts `math.log` on its positive domain. -/
def buildModel (lg : ℤ → ℤ) (words : List (List Char)) : Except (List Char) LanguageModel :=
  match costEntries lg words.length 0 words with
  | Except.error e => Except.error e
  | Except.ok entries =>
    if words.isEmpty then Except.error "max arg is an empty sequence".toList
    else
      Except.ok
        { wordcost := fun w => (entries.reverse.find? (fun p => p.1 == w)).map Prod.snd
          maxword := words.foldl (fun a w => max a w.length) 0
          noSpaceBefore := baseNoSpaceBefore
          noSpaceAfter := baseNoSpaceAfter }

/-- State-passing form of `split`: the method reads `self` but contains no
assignment to any of its fields, so it returns the model it was given. -/
def splitSt (m : LanguageModel) (s : List Char) :
    Option (List (List Char)) × LanguageModel :=
  (split m s, m)

/-- State-passing form of `candidates`, threading the model through the
per-chunk loop. -/
def candidatesSt (m : LanguageModel) (s : List Char) (top_n : ℕ) :
    List (List (List Char)) × LanguageModel :=
  let sl := toLowerList s
  let beamWidth := max top_n 10
  let p := (chunksOf sl).foldl
    (fun acc chunk => (candStep acc.2 beamWidth acc.1 chunk, acc.2)) (candInit, m)
  ((p.1.map (fun e => post_process_candidate e.1)).take top_n, p.2)

/-- State-passing form of `rejoin`: it first calls `split` on the model and
then reads the rule sets from the model that call returned. -/
def rejoinSt (m : LanguageModel) (s : List Char) : Option (List Char) × LanguageModel :=
  let p := splitSt m s
  match p.1 with
  | none => (none, p.2)
  | some toks => (some (rejoinTokens p.2 toks), p.2)

/-! ### Basic helper lemmas -/

lemma length_listSlice (s : List Char) (a b : ℕ) (hb : b ≤ s.length) :
    (listSlice s a b).length = b - a := by
  simp only [listSlice, List.length_take, List.length_drop]
  omega

lemma toLowerList_length (w : List Char) : (toLowerList w).length = w.length :=
  List.length_map w Char.toLower

lemma wordCostLookup_single (m : LanguageModel) (w : List Char) (h : w.length = 1) :
    wordCostLookup m w ≠ ⊤ := by
  unfold wordCostLookup
  cases hc : m.wordcost w with
  | some c => exact WithTop.coe_ne_top
  | none => simp [h]

lemma wordCostLookup_ne_top (m : LanguageModel) (w : List Char)
    (h : wordCostLookup m w ≠ ⊤) : w.length = 1 ∨ m.wordcost w ≠ none := by
  unfold wordCostLookup at h
  cases hc : m.wordcost w with
  | some c => right; simp [hc]
  | none =>
    left
    rw [hc] at h
    by_contra hlen
    simp only [if_neg hlen] at h
    exact h rfl

/-! ### The `best_match` fold invariant -/

/-- The state of the `best_match` fold after the first `n` reversed
enumeration indices have been examined. -/
def bmFold (m : LanguageModel) (s : List Char) (cost : List ECost) (i n : ℕ) : ECost × ℕ :=
  (List.range n).foldl (bmStep m s cost i) (⊤, 0)

lemma best_match_eq_bmFold (m : LanguageModel) (s : List Char) (cost : List ECost) (i : ℕ) :
    best_match m s cost i = bmFold m s cost i (min i m.maxword) := rfl

lemma bmFold_succ (m : LanguageModel) (s : List Char) (cost : List ECost) (i n : ℕ) :
    bmFold m s cost i (n + 1) = bmStep m s cost i (bmFold m s cost i n) n := by
  unfold bmFold
  rw [List.range_succ, List.foldl_append]
  rfl

/-- Invariant of the minimum-search loop of `best_match`: after examining
indices `0, …, n-1`, either no candidate was finite (the state is still
`(⊤, 0)`), or the state's cost is the minimum of the candidates seen, it is
achieved at index `k - 1` where `k` is the stored match length, and every
index strictly before `k - 1` has a strictly larger total cost (the
first-minimum tie-break). -/
lemma bm_inv (m : LanguageModel) (s : List Char) (cost : List ECost) (i : ℕ) (n : ℕ) :
    ((bmFold m s cost i n).1 = ⊤ →
      (bmFold m s cost i n).2 = 0 ∧ ∀ j < n, totalAt m s cost i j = ⊤) ∧
    ((bmFold m s cost i n).1 ≠ ⊤ →
      1 ≤ (bmFold m s cost i n).2 ∧ (bmFold m s cost i n).2 ≤ n ∧
      (bmFold m s cost i n).1 = totalAt m s cost i ((bmFold m s cost i n).2 - 1) ∧
      (∀ j < n, (bmFold m s cost i n).1 ≤ totalAt m s cost i j) ∧
      (∀ j < (bmFold m s cost i n).2 - 1, (bmFold m s cost i n).1 < totalAt m s cost i j)) := by
  induction n with
  | zero =>
    constructor
    · intro _
      exact ⟨rfl, fun j hj => absurd hj (Nat.not_lt_zero j)⟩
    · intro h
      exact absurd rfl h
  | succ n ih =>
    rw [bmFold_succ]
    unfold bmStep
    by_cases hlt : totalAt m s cost i n < (bmFold m s cost i n).1
    · rw [if_pos hlt]
      constructor
      · intro htop
        have htop' : totalAt m s cost i n = ⊤ := htop
        rw [htop'] at hlt
        exact absurd hlt not_top_lt
      · intro hne
        refine ⟨Nat.succ_le_succ (Nat.zero_le n), le_refl _, by simp, ?_, ?_⟩
        · intro j hj
          rcases Nat.lt_succ_iff_lt_or_eq.mp hj with hjn | hjn
          · by_cases htop : (bmFold m s cost i n).1 = ⊤
            · have := (ih.1 htop).2 j hjn
              rw [this]
              exact le_top
            · exact le_of_lt (lt_of_lt_of_le hlt ((ih.2 htop).2.2.2.1 j hjn))
          · subst hjn
            exact le_refl _
        · intro j hj
          have hj' : j < n := by simpa using hj
          by_cases htop : (bmFold m s cost i n).1 = ⊤
          · have := (ih.1 htop).2 j hj'
            rw [this]
            exact lt_top_iff_ne_top.mpr hne
          · exact lt_of_lt_of_le hlt ((ih.2 htop).2.2.2.1 j hj)
    · rw [if_neg hlt]
      constructor
      · intro htop
        refine ⟨(ih.1 htop).1, ?_⟩
        intro j hj
        rcases Nat.lt_succ_iff_lt_or_eq.mp hj with hjn | hjn
        · exact (ih.1 htop).2 j hjn
        · subst hjn
          rw [htop] at hlt
          by_contra hne
          exact hlt (lt_top_iff_ne_top.mpr hne)
      · intro hne
        obtain ⟨h1, h2, h3, h4, h5⟩ := ih.2 hne
        refine ⟨h1, Nat.le_succ_of_le h2, h3, ?_, h5⟩
        intro j hj
        rcases Nat.lt_succ_iff_lt_or_eq.mp hj with hjn | hjn
        · exact h4 j hjn
        · subst hjn
          exact not_lt.mp hlt

/-- Packaged specification of `best_match i` when the shortest candidate
(the single character `s[i-1:i]`) has finite total cost: the returned cost
is finite, the returned length `k` lies in `[1, min i maxword]`, the cost is
the total cost of length `k`, it is minimal over the whole window, and every
strictly shorter length has strictly larger total cost. -/
lemma best_match_spec (m : LanguageModel) (s : List Char) (cost : List ECost) (i : ℕ)
    (hmin : 0 < min i m.maxword) (h0 : totalAt m s cost i 0 ≠ ⊤) :
    (best_match m s cost i).1 ≠ ⊤ ∧
    1 ≤ (best_match m s cost i).2 ∧ (best_match m s cost i).2 ≤ min i m.maxword ∧
    (best_match m s cost i).1 = totalAt m s cost i ((best_match m s cost i).2 - 1) ∧
    (∀ j < min i m.maxword, (best_match m s cost i).1 ≤ totalAt m s cost i j) ∧
    (∀ j < (best_match m s cost i).2 - 1, (best_match m s cost i).1 < totalAt m s cost i j) := by
  have inv := bm_inv m s cost i (min i m.maxword)
  rw [best_match_eq_bmFold]
  have hne : (bmFold m s cost i (min i m.maxword)).1 ≠ ⊤ := by
    intro htop
    exact h0 ((inv.1 htop).2 0 hmin)
  obtain ⟨h1, h2, h3, h4, h5⟩ := inv.2 hne
  exact ⟨hne, h1, h2, h3, h4, h5⟩

/-! ### Cost array facts -/

lemma length_buildCostAux (m : LanguageModel) (s : List Char) :
    ∀ n, (buildCostAux m s n).length = n + 1 := by
  intro n
  induction n with
  | zero => rfl
  | succ n ih => simp [buildCostAux, List.length_append, ih]

lemma buildCostAux_finite (m : LanguageModel) (s : List Char) (hmw : 1 ≤ m.maxword) :
    ∀ n, n ≤ s.length → ∀ j, j ≤ n → (buildCostAux m s n).getD j 0 ≠ ⊤ := by
  intro n
  induction n with
  | zero =>
    intro _ j hj
    interval_cases j
    simp [buildCostAux]
  | succ n ih =>
    intro hn j hj
    show (buildCostAux m s n ++ [(best_match m s (buildCostAux m s n) (n + 1)).1]).getD j 0 ≠ ⊤
    rcases Nat.lt_or_ge j (n + 1) with hjn | hjn
    · rw [List.getD_append _ _ _ _ (by rw [length_buildCostAux]; omega)]
      exact ih (by omega) j (by omega)
    · have hj1 : j = n + 1 := by omega
      subst hj1
      rw [List.getD_append_right _ _ _ _ (by rw [length_buildCostAux])]
      rw [length_buildCostAux]
      simp only [Nat.sub_self]
      have hspec := best_match_spec m s (buildCostAux m s n) (n + 1)
        (by omega)
        (by
          unfold totalAt
          rw [WithTop.add_ne_top]
          constructor
          · simpa using ih (by omega) n (by omega)
          · apply wordCostLookup_single
            rw [toLowerList_length, length_listSlice s _ _ (by omega)]
            omega)
      simpa using hspec.1

lemma buildCost_finite (m : LanguageModel) (s : List Char) (hmw : 1 ≤ m.maxword)
    (j : ℕ) (hj : j ≤ s.length) : (buildCost m s).getD j 0 ≠ ⊤ :=
  buildCostAux_finite m s hmw s.length (le_refl _) j hj

/-- Specification of `best_match` over the completed cost array: at every
position `1 ≤ i ≤ len s` of a model with a nonempty window, the returned
length is in `[1, min i maxword]`, the returned cost is finite, equals the
total cost of the returned length, is minimal over the window, and every
strictly shorter length costs strictly more. -/
lemma best_match_buildCost_spec (m : LanguageModel) (s : List Char) (hmw : 1 ≤ m.maxword)
    (i : ℕ) (h1 : 1 ≤ i) (hi : i ≤ s.length) :
    (best_match m s (buildCost m s) i).1 ≠ ⊤ ∧
    1 ≤ (best_match m s (buildCost m s) i).2 ∧
    (best_match m s (buildCost m s) i).2 ≤ min i m.maxword ∧
    (best_match m s (buildCost m s) i).1 =
      totalAt m s (buildCost m s) i ((best_match m s (buildCost m s) i).2 - 1) ∧
    (∀ j < min i m.maxword,
      (best_match m s (buildCost m s) i).1 ≤ totalAt m s (buildCost m s) i j) ∧
    (∀ j < (best_match m s (buildCost m s) i).2 - 1,
      (best_match m s (buildCost m s) i).1 < totalAt m s (buildCost m s) i j) := by
  apply best_match_spec m s (buildCost m s) i (by omega)
  unfold totalAt
  rw [WithTop.add_ne_top]
  constructor
  · exact buildCost_finite m s hmw (i - 0 - 1) (by omega)
  · apply wordCostLookup_single
    rw [toLowerList_length, length_listSlice s _ _ (by omega)]
    omega

/-! ### Backtracking facts -/

lemma slice_getLastD (s : List Char) (i k : ℕ) (hk : 1 ≤ k) (hki : k ≤ i)
    (hi : i ≤ s.length) : (listSlice s (i - k) i).getLastD ' ' = s.getD (i - 1) ' ' := by
  have hlen : (listSlice s (i - k) i).length = k := by
    rw [length_listSlice s _ _ hi]
    omega
  rw [List.getLastD_eq_getLast?, List.getLast?_eq_getElem?, List.getD_eq_getElem?_getD, hlen]
  have : (listSlice s (i - k) i)[k - 1]? = s[i - 1]? := by
    unfold listSlice
    rw [List.getElem?_take, if_pos (by omega), List.getElem?_drop]
    congr 1
    omega
  rw [this]

/-- The in-loop merge step of `_split` coincides with the token-level merge
rules whenever the emitted token `s[i-k:i]` is a genuine nonempty segment. -/
lemma backStep_eq_mergeStepTok (s : List Char) (i k : ℕ) (out : List (List Char))
    (hk : 1 ≤ k) (hki : k ≤ i) (hi : i ≤ s.length) :
    backStep s i k out = mergeStepTok (listSlice s (i - k) i) out := by
  have hl := slice_getLastD s i k hk hki hi
  simp only [backStep, mergeStepTok, hl]

/-- Correctness of the backtracking loop of `_split` for models with a
nonempty window: the instrumented raw-segment pass succeeds, the raw
segments concatenate to the processed prefix, every raw segment is a
nonempty dictionary word or a single character (after lowercasing), and the
real loop equals the merge-rule fold over the raw segments. -/
lemma backtrack_segs (m : LanguageModel) (s : List Char) (hmw : 1 ≤ m.maxword) :
    ∀ fuel i, i ≤ fuel → i ≤ s.length →
    ∃ segs, segsAux m s (buildCost m s) fuel i = some segs ∧
      segs.flatten = s.take i ∧
      (∀ t ∈ segs, 1 ≤ t.length ∧ (t.length = 1 ∨ m.wordcost (toLowerList t) ≠ none)) ∧
      (∀ out, backtrackAux m s (buildCost m s) fuel i out =
        some (segs.foldr mergeStepTok out)) := by
  intro fuel
  induction fuel with
  | zero =>
    intro i hif _
    have hi0 : i = 0 := by omega
    subst hi0
    exact ⟨[], rfl, by simp, by simp, fun out => rfl⟩
  | succ fuel ih =>
    intro i hif his
    cases i with
    | zero => exact ⟨[], rfl, by simp, by simp, fun out => rfl⟩
    | succ i' =>
      set i := i' + 1 with hidef
      obtain ⟨hne, hk1, hkmin, hceq, _, _⟩ :=
        best_match_buildCost_spec m s hmw i (by omega) his
      set k := (best_match m s (buildCost m s) i).2 with hkdef
      have hki : k ≤ i := le_trans hkmin (min_le_left _ _)
      obtain ⟨segs, hsegs, hflat, htok, hback⟩ :=
        ih (i - k) (by omega) (by omega)
      refine ⟨segs ++ [listSlice s (i - k) i], ?_, ?_, ?_, ?_⟩
      · show (segsAux m s (buildCost m s) fuel (i - k)).map
            (fun l => l ++ [listSlice s (i - k) i]) = _
        rw [hsegs]
        rfl
      · rw [List.flatten_append, hflat]
        simp only [List.flatten_cons, List.flatten_nil, List.append_nil, listSlice]
        rw [← List.take_add]
        congr 1
        omega
      · intro t ht
        rcases List.mem_append.mp ht with h | h
        · exact htok t h
        · have ht' : t = listSlice s (i - k) i := by simpa using h
          subst ht'
          have hlen : (listSlice s (i - k) i).length = k := by
            rw [length_listSlice s _ _ his]
            omega

          constructor
          · omega
          · have hky : i - (k - 1) - 1 = i - k := by omega
            rw [hceq] at hne
            unfold totalAt at hne
            rw [hky] at hne
            have hwc := (WithTop.add_ne_top.mp hne).2
            have := wordCostLookup_ne_top m _ hwc
            rw [toLowerList_length, hlen] at this
            rw [hlen]
            exact this
      · intro out
        show backtrackAux m s (buildCost m s) fuel (i - k) (backStep s i k out) = _
        rw [hback (backStep s i k out), backStep_eq_mergeStepTok s i k out hk1 hki his]
        rw [List.foldr_append]
        rfl

/-! ### Chunker facts -/

lemma pyRuns_no_ws (s : List Char) (h : ∀ c ∈ s, isWs c = false) : pyRuns s = [s] := by
  induction s with
  | nil => rfl
  | cons c cs ih =>
    have hc : isWs c = false := h c (by simp)
    have ihe : pyRuns cs = [cs] := ih (fun x hx => h x (by simp [hx]))
    show runsStep c (pyRuns cs) = [c :: cs]
    rw [ihe]
    simp [runsStep, hc]

lemma mergeStepTok_flatten (t : List Char) (out : List (List Char)) :
    (mergeStepTok t out).flatten = t ++ out.flatten := by
  by_cases h1 : t = ['\'']
  · simp [mergeStepTok, h1]
  · cases out with
    | nil => simp [mergeStepTok, h1]
    | cons prev rest =>
      have hm : mergeStepTok t (prev :: rest) =
          if prev = ['\'', 's'] ∨ ((t.getLastD ' ').isDigit ∧ (prev.headD ' ').isDigit) then
            (t ++ prev) :: rest
          else t :: prev :: rest := by
        simp [mergeStepTok, h1]
      rw [hm]
      by_cases h2 : prev = ['\'', 's'] ∨ ((t.getLastD ' ').isDigit ∧ (prev.headD ' ').isDigit)
      · rw [if_pos h2]
        simp
      · rw [if_neg h2]
        simp

lemma foldr_mergeStepTok_flatten (l : List (List Char)) (out : List (List Char)) :
    (l.foldr mergeStepTok out).flatten = l.flatten ++ out.flatten := by
  induction l with
  | nil => simp
  | cons t ts ih =>
    simp only [List.foldr_cons, List.flatten_cons]
    rw [mergeStepTok_flatten, ih, List.append_assoc]

/-- `_split` for models with a nonempty window: it succeeds and its result
is the merge fold over the raw segments. -/
lemma splitChunk_eq (m : LanguageModel) (s : List Char) (hmw : 1 ≤ m.maxword) :
    ∃ segs, bestSegs m s = some segs ∧
      segs.flatten = s ∧
      (∀ t ∈ segs, 1 ≤ t.length ∧ (t.length = 1 ∨ m.wordcost (toLowerList t) ≠ none)) ∧
      splitChunk m s = some (segs.foldr mergeStepTok []) := by
  obtain ⟨segs, hsegs, hflat, htok, hback⟩ :=
    backtrack_segs m s hmw s.length s.length (le_refl _) (le_refl _)
  exact ⟨segs, hsegs, by simpa using hflat, htok, hback []⟩

/-- Recursion principle matching the text/delimiter alternation used by
`joinPartsM`. -/
theorem listPairRec {P : List (List Char) → Prop} (h0 : P []) (h1 : ∀ t, P [t])
    (h2 : ∀ t w rest, P rest → P (t :: w :: rest)) : ∀ l, P l
  | [] => h0
  | [t] => h1 t
  | t :: w :: rest => h2 t w rest (listPairRec h0 h1 h2 rest)

lemma joinPartsM_isSome (m : LanguageModel) (hmw : 1 ≤ m.maxword) :
    ∀ l, ∃ r, joinPartsM m l = some r := by
  apply listPairRec
  · exact ⟨[], rfl⟩
  · intro t
    obtain ⟨_, _, _, _, h⟩ := splitChunk_eq m t hmw
    exact ⟨_, h⟩
  · intro t w rest ih
    obtain ⟨r, hr⟩ := ih
    obtain ⟨segs, _, _, _, ht⟩ := splitChunk_eq m t hmw
    refine ⟨List.foldr mergeStepTok [] segs ++ [w] ++ r, ?_⟩
    show (match splitChunk m t, joinPartsM m rest with
      | some a, some b => some (a ++ [w] ++ b)
      | _, _ => none) = _
    rw [ht, hr]

/-! ### Concrete model used by the witnesses and the counterexample -/

/-- A small concrete language model (an abstract cost table with integer
costs), used to instantiate the theorems on concrete inputs. -/
def demoModel : LanguageModel where
  wordcost := fun w =>
    if w = ['a'] then some 2 else
    if w = ['b'] then some 2 else
    if w = ['\'', 's', 'b'] then some 1 else
    if w = ['c'] then some 1 else none
  maxword := 3
  noSpaceBefore := baseNoSpaceBefore
  noSpaceAfter := baseNoSpaceAfter

/-! ### Claim theorems -/

/-- Claim C1: for every non-whitespace string `s`, `split(s)` succeeds and
concatenating its tokens in order reproduces `s` exactly, original case
included — the lowercasing applied for cost lookup never reaches the output
tokens, which are verbatim slices of `s`. -/
theorem c1_split_lossless (m : LanguageModel) (s : List Char)
    (hmw : 1 ≤ m.maxword) (hs : ∀ c ∈ s, isWs c = false) :
    ∃ l, split m s = some l ∧ l.flatten = s := by
  obtain ⟨segs, _, hflat, _, hchunk⟩ := splitChunk_eq m s hmw
  refine ⟨segs.foldr mergeStepTok [], ?_, ?_⟩
  · unfold split
    rw [pyRuns_no_ws s hs]
    exact hchunk
  · rw [foldr_mergeStepTok_flatten]
    simp [hflat]

theorem c1_split_lossless_witness :
    (1 ≤ demoModel.maxword ∧ ∀ c ∈ ['a', 'b'], isWs c = false) ∧
    ∃ l, split demoModel ['a', 'b'] = some l ∧ l.flatten = ['a', 'b'] :=
  ⟨⟨by decide, by decide⟩, c1_split_lossless demoModel ['a', 'b'] (by decide) (by decide)⟩

/-- Claim C2: on any constructed model (whose window bound is at least one),
`split`, `candidates` and `rejoin` return normally on every string: the
embedded loops always succeed (`some`), `split("")` gives an empty token
sequence, `rejoin("")` gives the empty string, and `candidates("", n)` also
returns normally (its beam stays at the single empty split). -/
theorem c2_total_ops (m : LanguageModel) (hmw : 1 ≤ m.maxword) (s : List Char) (n : ℕ) :
    (∃ l, split m s = some l) ∧ (∃ t, rejoin m s = some t) ∧
    split m [] = some [] ∧ rejoin m [] = some [] ∧
    candidates m [] n = List.take n [[]] := by
  obtain ⟨l, hl⟩ := joinPartsM_isSome m hmw (pyRuns s)
  refine ⟨⟨l, hl⟩, ⟨rejoinTokens m l, ?_⟩, rfl, rfl, rfl⟩
  unfold rejoin split
  rw [hl]
  rfl

theorem c2_total_ops_witness :
    1 ≤ demoModel.maxword ∧
    ((∃ l, split demoModel ['a', ' ', 'c'] = some l) ∧
      (∃ t, rejoin demoModel ['a', ' ', 'c'] = some t) ∧
      split demoModel [] = some [] ∧ rejoin demoModel [] = some [] ∧
      candidates demoModel [] 3 = List.take 3 [[]]) :=
  ⟨by decide, c2_total_ops demoModel (by decide) ['a', ' ', 'c'] 3⟩

/-- Claim C4: in `best_match i` the candidate word lengths are examined from
the shortest (`k + 1 = 1`) up to `min i maxword`; the running minimum is
replaced only by a strictly lower total cost; hence the returned length
achieves the window minimum and every strictly shorter length has a strictly
larger total cost — ties go to the shortest word.  The hypothesis says the
shortest candidate has finite total cost (always true over the completed
cost array, `best_match_buildCost_spec`). -/
theorem c4_best_match_tiebreak (m : LanguageModel) (s : List Char) (cost : List ECost)
    (i : ℕ) (h1 : 1 ≤ i) (hmw : 1 ≤ m.maxword)
    (h0 : totalAt m s cost i 0 ≠ ⊤) :
    1 ≤ (best_match m s cost i).2 ∧
    (best_match m s cost i).2 ≤ min i m.maxword ∧
    (best_match m s cost i).1 = totalAt m s cost i ((best_match m s cost i).2 - 1) ∧
    (∀ j < min i m.maxword, (best_match m s cost i).1 ≤ totalAt m s cost i j) ∧
    (∀ j < (best_match m s cost i).2 - 1, (best_match m s cost i).1 < totalAt m s cost i j) :=
  (best_match_spec m s cost i (by omega) h0).2

theorem c4_best_match_tiebreak_witness :
    (1 ≤ 2 ∧ 1 ≤ demoModel.maxword ∧
      totalAt demoModel ['a', 'b'] (buildCost demoModel ['a', 'b']) 2 0 ≠ ⊤) ∧
    (1 ≤ (best_match demoModel ['a', 'b'] (buildCost demoModel ['a', 'b']) 2).2 ∧
      (best_match demoModel ['a', 'b'] (buildCost demoModel ['a', 'b']) 2).2 ≤
        min 2 demoModel.maxword ∧
      (best_match demoModel ['a', 'b'] (buildCost demoModel ['a', 'b']) 2).1 =
        totalAt demoModel ['a', 'b'] (buildCost demoModel ['a', 'b']) 2
          ((best_match demoModel ['a', 'b'] (buildCost demoModel ['a', 'b']) 2).2 - 1) ∧
      (∀ j < min 2 demoModel.maxword,
        (best_match demoModel ['a', 'b'] (buildCost demoModel ['a', 'b']) 2).1 ≤
          totalAt demoModel ['a', 'b'] (buildCost demoModel ['a', 'b']) 2 j) ∧
      (∀ j < (best_match demoModel ['a', 'b'] (buildCost demoModel ['a', 'b']) 2).2 - 1,
        (best_match demoModel ['a', 'b'] (buildCost demoModel ['a', 'b']) 2).1 <
          totalAt demoModel ['a', 'b'] (buildCost demoModel ['a', 'b']) 2 j)) :=
  ⟨⟨by decide, by decide, by decide⟩,
    c4_best_match_tiebreak demoModel ['a', 'b'] (buildCost demoModel ['a', 'b']) 2
      (by decide) (by decide) (by decide)⟩

/-! ### Sorting and beam lemmas -/

/-- Comparison by cumulative cost, the sort key of the source. -/
def entryLE (a b : Entry) : Prop := a.2 ≤ b.2

lemma mem_insertEntry (e x : Entry) (l : List Entry) :
    x ∈ insertEntry e l ↔ x = e ∨ x ∈ l := by
  induction l with
  | nil => simp [insertEntry]
  | cons y ys ih =>
    unfold insertEntry
    by_cases h : y.2 < e.2
    · rw [if_pos h]
      simp only [List.mem_cons, ih]
      tauto
    · rw [if_neg h]
      simp only [List.mem_cons]

lemma mem_sortByCost (x : Entry) (l : List Entry) : x ∈ sortByCost l ↔ x ∈ l := by
  induction l with
  | nil => simp [sortByCost]
  | cons y ys ih =>
    show x ∈ insertEntry y (sortByCost ys) ↔ _
    rw [mem_insertEntry]
    simp only [List.mem_cons, ih]

lemma length_insertEntry (e : Entry) (l : List Entry) :
    (insertEntry e l).length = l.length + 1 := by
  induction l with
  | nil => rfl
  | cons y ys ih =>
    unfold insertEntry
    by_cases h : y.2 < e.2
    · rw [if_pos h]
      simp [ih]
    · rw [if_neg h]
      simp

lemma length_sortByCost (l : List Entry) : (sortByCost l).length = l.length := by
  induction l with
  | nil => rfl
  | cons y ys ih =>
    show (insertEntry y (sortByCost ys)).length = _
    rw [length_insertEntry, ih]
    rfl

lemma pairwise_insertEntry (e : Entry) (l : List Entry)
    (h : l.Pairwise entryLE) : (insertEntry e l).Pairwise entryLE := by
  induction l with
  | nil => simp [insertEntry, List.pairwise_singleton]
  | cons y ys ih =>
    rw [List.pairwise_cons] at h
    obtain ⟨hy, hys⟩ := h
    unfold insertEntry
    by_cases hlt : y.2 < e.2
    · rw [if_pos hlt]
      rw [List.pairwise_cons]
      refine ⟨?_, ih hys⟩
      intro z hz
      rcases (mem_insertEntry e z ys).mp hz with hz | hz
      · subst hz
        exact le_of_lt hlt
      · exact hy z hz
    · rw [if_neg hlt]
      rw [List.pairwise_cons]
      refine ⟨?_, List.pairwise_cons.mpr ⟨hy, hys⟩⟩
      intro z hz
      rcases List.mem_cons.mp hz with hz | hz
      · subst hz
        exact not_lt.mp hlt
      · exact le_trans (not_lt.mp hlt) (hy z hz)

lemma pairwise_sortByCost (l : List Entry) : (sortByCost l).Pairwise entryLE := by
  induction l with
  | nil => exact List.Pairwise.nil
  | cons y ys ih => exact pairwise_insertEntry y (sortByCost ys) ih

lemma mem_getD_levels (L : List (List Entry)) (j : ℕ) (x : Entry)
    (hx : x ∈ L.getD j []) : ∃ lvl ∈ L, x ∈ lvl := by
  rcases Nat.lt_or_ge j L.length with h | h
  · rw [List.getD_eq_getElem?_getD, List.getElem?_eq_getElem h] at hx
    exact ⟨L[j], List.getElem_mem h, hx⟩
  · rw [List.getD_eq_getElem?_getD, List.getElem?_eq_none h] at hx
    exact absurd hx (List.not_mem_nil x)

/-- Every token of every retained entry of the per-chunk beam-search table
is either a dictionary word or a single character: extensions are filtered
by `word_cost < 1e100`, and the unknown multi-character penalty is `inf`. -/
lemma bsLevels_tokens (m : LanguageModel) (chunk : List Char) (bw : ℕ) :
    ∀ n, ∀ lvl ∈ bsLevels m chunk bw n, ∀ e ∈ lvl, ∀ t ∈ e.1,
      t.length = 1 ∨ m.wordcost t ≠ none := by
  intro n
  induction n with
  | zero =>
    intro lvl hl e he t ht
    simp only [bsLevels, List.mem_singleton] at hl
    subst hl
    simp only [List.mem_singleton] at he
    subst he
    exact absurd ht (List.not_mem_nil t)
  | succ n ih =>
    intro lvl hl e he t ht
    rcases List.mem_append.mp hl with h | h
    · exact ih lvl h e he t ht
    · have hlvl : lvl = bsLevelStep m chunk bw (bsLevels m chunk bw n) (n + 1) := by
        simpa using h
      subst hlvl
      unfold bsLevelStep at he
      have he' := (mem_sortByCost e _).mp (List.take_subset _ _ he)
      obtain ⟨j, _, hej⟩ := List.mem_flatMap.mp he'
      by_cases hwc : wordCostLookup m (listSlice chunk j (n + 1)) <
          (((10 : ℤ) ^ 100 : ℤ) : ECost)
      · rw [if_pos hwc] at hej
        obtain ⟨pe, hpe, hpee⟩ := List.mem_map.mp hej
        obtain ⟨lvl', hlvl', hpel⟩ := mem_getD_levels _ j pe hpe
        have ht' : t ∈ pe.1 ++ [listSlice chunk j (n + 1)] := by
          rw [← hpee] at ht
          exact ht
        rcases List.mem_append.mp ht' with h2 | h2
        · exact ih lvl' hlvl' pe hpel t h2
        · have ht2 : t = listSlice chunk j (n + 1) := by simpa using h2
          rw [← ht2] at hwc
          cases hdict : m.wordcost t with
          | some c => exact Or.inr (by simp [hdict])
          | none =>
            left
            by_contra hlen
            unfold wordCostLookup at hwc
            rw [hdict, if_neg hlen] at hwc
            exact absurd hwc not_top_lt
      · rw [if_neg hwc] at hej
        exact absurd hej (List.not_mem_nil e)

lemma beam_search_tokens (m : LanguageModel) (chunk : List Char) (bw : ℕ) :
    ∀ e ∈ beam_search_on_chunk m chunk bw, ∀ t ∈ e.1,
      t.length = 1 ∨ m.wordcost t ≠ none := by
  intro e he
  unfold beam_search_on_chunk at he
  obtain ⟨lvl, hlvl, hel⟩ := mem_getD_levels _ chunk.length e he
  exact bsLevels_tokens m chunk bw chunk.length lvl hlvl e hel

/-- Claim C6: a multi-character substring that is not a key of the cost
table is never selected as a segment.  First conjunct: every raw segment
chosen by the `_split` dynamic program (before the merge step) is a single
character or has its lowercasing in the dictionary.  Second conjunct: every
token of every entry returned by the per-chunk beam search is a single
character or a dictionary key (the chunk is already lowercased by
`candidates`). -/
theorem c6_unknown_never_selected (m : LanguageModel) :
    (∀ s segs, 1 ≤ m.maxword → bestSegs m s = some segs →
      ∀ t ∈ segs, t.length = 1 ∨ m.wordcost (toLowerList t) ≠ none) ∧
    (∀ chunk bw, ∀ e ∈ beam_search_on_chunk m chunk bw, ∀ t ∈ e.1,
      t.length = 1 ∨ m.wordcost t ≠ none) := by
  constructor
  · intro s segs hmw hsegs
    obtain ⟨segs0, hsegs0, _, htok, _⟩ := splitChunk_eq m s hmw
    rw [hsegs0] at hsegs
    have : segs0 = segs := by injection hsegs
    subst this
    intro t ht
    exact (htok t ht).2
  · intro chunk bw
    exact beam_search_tokens m chunk bw

theorem c6_unknown_never_selected_witness :
    (1 ≤ demoModel.maxword ∧ bestSegs demoModel ['a', 'b'] = some [['a'], ['b']]) ∧
    (∀ t ∈ [['a'], ['b']], t.length = 1 ∨ demoModel.wordcost (toLowerList t) ≠ none) ∧
    (∀ e ∈ beam_search_on_chunk demoModel ['a', 'b'] 10, ∀ t ∈ e.1,
      t.length = 1 ∨ demoModel.wordcost t ≠ none) :=
  ⟨⟨by decide, by decide⟩,
    (c6_unknown_never_selected demoModel).1 ['a', 'b'] [['a'], ['b']] (by decide) (by decide),
    (c6_unknown_never_selected demoModel).2 ['a', 'b'] 10⟩

lemma sort_take_bounded (x : List Entry) (bw : ℕ) :
    ((sortByCost x).take bw).length ≤ bw ∧ ((sortByCost x).take bw).Pairwise entryLE :=
  ⟨by rw [List.length_take]; exact min_le_left _ _,
    List.Pairwise.sublist (List.take_sublist _ _) (pairwise_sortByCost x)⟩

lemma candStep_bounded (m : LanguageModel) (bw : ℕ) (beam : List Entry) (chunk : List Char) :
    (candStep m bw beam chunk).length ≤ bw ∧ (candStep m bw beam chunk).Pairwise entryLE :=
  sort_take_bounded _ bw

lemma foldl_candStep_bounded (m : LanguageModel) (bw : ℕ) :
    ∀ (cl : List (List Char)) (beam : List Entry), beam.length ≤ bw →
      beam.Pairwise entryLE →
      (List.foldl (candStep m bw) beam cl).length ≤ bw ∧
      (List.foldl (candStep m bw) beam cl).Pairwise entryLE := by
  intro cl
  induction cl with
  | nil => intro beam h1 h2; exact ⟨h1, h2⟩
  | cons c cl ih =>
    intro beam _ _
    exact ih (candStep m bw beam c) (candStep_bounded m bw beam c).1
      (candStep_bounded m bw beam c).2

/-- Claim C7: with `beam_width = max(top_n, 10)`, the global beam of
`candidates` never exceeds `beam_width` entries after any sequence of chunk
steps (starting from the seed beam `[([], 0)]`), it is always sorted by
non-decreasing cumulative cost, and the returned list is the post-processed
prefix of that cost-sorted beam, containing at most `top_n` entries. -/
theorem c7_beam_bounded_sorted (m : LanguageModel) (n : ℕ) :
    (∀ cl : List (List Char),
      (List.foldl (candStep m (max n 10)) candInit cl).length ≤ max n 10 ∧
      (List.foldl (candStep m (max n 10)) candInit cl).Pairwise entryLE) ∧
    (∀ s, candidates m s n =
        ((List.foldl (candStep m (max n 10)) candInit (chunksOf (toLowerList s))).map
          (fun e => post_process_candidate e.1)).take n ∧
      (candidates m s n).length ≤ n) := by
  constructor
  · intro cl
    apply foldl_candStep_bounded m (max n 10) cl candInit
    · show 1 ≤ max n 10
      calc 1 ≤ 10 := by norm_num
      _ ≤ max n 10 := le_max_right n 10
    · exact List.pairwise_singleton entryLE ([], 0)
  · intro s
    refine ⟨rfl, ?_⟩
    show (((List.foldl (candStep m (max n 10)) candInit (chunksOf (toLowerList s))).map
      (fun e => post_process_candidate e.1)).take n).length ≤ n
    rw [List.length_take]
    exact min_le_left _ _

lemma length_bsLevels (m : LanguageModel) (chunk : List Char) (bw : ℕ) :
    ∀ n, (bsLevels m chunk bw n).length = n + 1 := by
  intro n
  induction n with
  | zero => rfl
  | succ n ih => simp [bsLevels, List.length_append, ih]

lemma listSlice_one (s : List Char) (i : ℕ) (h : i < s.length) :
    ∃ ch ∈ s, listSlice s i (i + 1) = [ch] := by
  have hlen : (listSlice s i (i + 1)).length = 1 := by
    rw [length_listSlice s _ _ (by omega)]
    omega
  obtain ⟨ch, hch⟩ := List.length_eq_one.mp hlen
  refine ⟨ch, ?_, hch⟩
  have hmem : ch ∈ listSlice s i (i + 1) := by
    rw [hch]
    exact List.mem_singleton_self ch
  exact List.drop_subset i s (List.take_subset _ _ hmem)

/-- Every dp level of the per-chunk beam search is nonempty when the beam
width is positive and the single-character fallback costs stay below the
`1e100` filter: the one-character extension from the previous level is
always available. -/
lemma bsLevels_getD_ne_nil (m : LanguageModel) (chunk : List Char) (bw : ℕ)
    (hbw : 1 ≤ bw) (hmw : 1 ≤ m.maxword)
    (hfin : ∀ ch ∈ chunk, wordCostLookup m [ch] < (((10 : ℤ) ^ 100 : ℤ) : ECost)) :
    ∀ n, n ≤ chunk.length → ∀ j ≤ n, (bsLevels m chunk bw n).getD j [] ≠ [] := by
  intro n
  induction n with
  | zero =>
    intro _ j hj
    interval_cases j
    simp [bsLevels]
  | succ n ih =>
    intro hn j hj
    show ((bsLevels m chunk bw n) ++
      [bsLevelStep m chunk bw (bsLevels m chunk bw n) (n + 1)]).getD j [] ≠ []
    rcases Nat.lt_or_ge j (n + 1) with hjn | hjn
    · rw [List.getD_append _ _ _ _ (by rw [length_bsLevels]; omega)]
      exact ih (by omega) j (by omega)
    · have hj1 : j = n + 1 := by omega
      subst hj1
      rw [List.getD_append_right _ _ _ _ (by rw [length_bsLevels])]
      rw [length_bsLevels]
      simp only [Nat.sub_self]
      show bsLevelStep m chunk bw (bsLevels m chunk bw n) (n + 1) ≠ []
      unfold bsLevelStep
      obtain ⟨ch, hchm, hsl⟩ := listSlice_one chunk n (by omega)
      obtain ⟨e0, he0⟩ := List.exists_mem_of_ne_nil _ (ih (by omega) n (by omega))
      have hjmem : n ∈ List.range' (n + 1 - m.maxword) (n + 1 - (n + 1 - m.maxword)) := by
        rw [List.mem_range'_1]
        omega
      have hwc : wordCostLookup m (listSlice chunk n (n + 1)) <
          (((10 : ℤ) ^ 100 : ℤ) : ECost) := by
        rw [hsl]
        exact hfin ch hchm
      have hmem : (e0.1 ++ [listSlice chunk n (n + 1)],
          e0.2 + wordCostLookup m (listSlice chunk n (n + 1))) ∈
          (List.range' (n + 1 - m.maxword) (n + 1 - (n + 1 - m.maxword))).flatMap (fun j =>
            let word := listSlice chunk j (n + 1)
            let wc := wordCostLookup m word
            if wc < (((10 : ℤ) ^ 100 : ℤ) : ECost) then
              ((bsLevels m chunk bw n).getD j []).map (fun e => (e.1 ++ [word], e.2 + wc))
            else []) := by
        rw [List.mem_flatMap]
        refine ⟨n, hjmem, ?_⟩
        simp only [if_pos hwc]
        exact List.mem_map.mpr ⟨e0, he0, rfl⟩
      intro hemp
      have hlen0 : ((sortByCost ((List.range' (n + 1 - m.maxword)
          (n + 1 - (n + 1 - m.maxword))).flatMap (fun j =>
            let word := listSlice chunk j (n + 1)
            let wc := wordCostLookup m word
            if wc < (((10 : ℤ) ^ 100 : ℤ) : ECost) then
              ((bsLevels m chunk bw n).getD j []).map (fun e => (e.1 ++ [word], e.2 + wc))
            else []))).take bw).length = 0 := by
        rw [hemp]
        rfl
      rw [List.length_take, length_sortByCost] at hlen0
      have : _ ≠ [] := List.ne_nil_of_mem hmem
      have hpos : 0 < (((List.range' (n + 1 - m.maxword)
          (n + 1 - (n + 1 - m.maxword))).flatMap (fun j =>
            let word := listSlice chunk j (n + 1)
            let wc := wordCostLookup m word
            if wc < (((10 : ℤ) ^ 100 : ℤ) : ECost) then
              ((bsLevels m chunk bw n).getD j []).map (fun e => (e.1 ++ [word], e.2 + wc))
            else [])).length) := List.length_pos.mpr this
      omega

/-- Claim C8: for every chunk whose single characters pass the `1e100`
filter (true of every realistic cost table) and every positive beam width,
the per-chunk beam search returns at least one candidate; consequently the
substitution branch of `candidates` that would treat the whole chunk as one
token at penalty cost `9e999` is unreachable: on a non-whitespace chunk,
`candStep` always equals the fallback-free cross product with the actual
beam-search result.  In `candidates` the beam width is `max(top_n, 10) ≥ 1`,
so this applies to every chunk it processes. -/
theorem c8_chunk_beam_nonempty (m : LanguageModel) (chunk : List Char) (bw : ℕ)
    (hbw : 1 ≤ bw) (hmw : 1 ≤ m.maxword)
    (hfin : ∀ ch ∈ chunk, wordCostLookup m [ch] < (((10 : ℤ) ^ 100 : ℤ) : ECost)) :
    beam_search_on_chunk m chunk bw ≠ [] ∧
    (∀ beam : List Entry, ¬ isWsRun chunk = true → candStep m bw beam chunk =
      (sortByCost (beam.flatMap (fun e => (beam_search_on_chunk m chunk bw).map
        (fun c => (e.1 ++ c.1, e.2 + c.2))))).take bw) := by
  have h1 : beam_search_on_chunk m chunk bw ≠ [] := by
    unfold beam_search_on_chunk
    exact bsLevels_getD_ne_nil m chunk bw hbw hmw hfin chunk.length (le_refl _)
      chunk.length (le_refl _)
  refine ⟨h1, ?_⟩
  intro beam hws
  have hcc : (beam_search_on_chunk m chunk bw).isEmpty = false := by
    cases hc : (beam_search_on_chunk m chunk bw).isEmpty
    · rfl
    · exact absurd (List.isEmpty_iff.mp hc) h1
  unfold candStep
  rw [if_neg hws]
  simp only [hcc, Bool.false_eq_true, if_false]

theorem c8_chunk_beam_nonempty_witness :
    (1 ≤ 10 ∧ 1 ≤ demoModel.maxword ∧
      ∀ ch ∈ ['a', 'b'], wordCostLookup demoModel [ch] < (((10 : ℤ) ^ 100 : ℤ) : ECost)) ∧
    (beam_search_on_chunk demoModel ['a', 'b'] 10 ≠ [] ∧
      (∀ beam : List Entry, ¬ isWsRun ['a', 'b'] = true →
        candStep demoModel 10 beam ['a', 'b'] =
        (sortByCost (beam.flatMap (fun e => (beam_search_on_chunk demoModel ['a', 'b'] 10).map
          (fun c => (e.1 ++ c.1, e.2 + c.2))))).take 10)) :=
  ⟨⟨by decide, by decide, by decide⟩,
    c8_chunk_beam_nonempty demoModel ['a', 'b'] 10 (by decide) (by decide) (by decide)⟩

/-- Claim C10: the method bodies of `split`, `candidates` and `rejoin` only
read the model's fields and never assign them; in the state-passing
embedding every call returns the model it received, unchanged, and the
returned value is the pure function of the model — all per-call state (cost
arrays, beams, result parts) is local. -/
theorem c10_model_unchanged (m : LanguageModel) (s : List Char) (n : ℕ) :
    (splitSt m s).2 = m ∧ (splitSt m s).1 = split m s ∧
    (candidatesSt m s n).2 = m ∧ (candidatesSt m s n).1 = candidates m s n ∧
    (rejoinSt m s).2 = m ∧ (rejoinSt m s).1 = rejoin m s := by
  have hfold : ∀ (bw : ℕ) (cl : List (List Char)) (b : List Entry),
      List.foldl (fun acc chunk => (candStep acc.2 bw acc.1 chunk, acc.2)) (b, m) cl =
      (List.foldl (candStep m bw) b cl, m) := by
    intro bw cl
    induction cl with
    | nil => intro b; rfl
    | cons c cl ih => intro b; exact ih (candStep m bw b c)
  refine ⟨rfl, rfl, ?_, ?_, ?_, ?_⟩
  · show (List.take n ((List.foldl (fun acc chunk => (candStep acc.2 (max n 10) acc.1 chunk, acc.2))
      (candInit, m) (chunksOf (toLowerList s))).1.map (fun e => post_process_candidate e.1)),
      (List.foldl (fun acc chunk => (candStep acc.2 (max n 10) acc.1 chunk, acc.2))
        (candInit, m) (chunksOf (toLowerList s))).2).2 = m
    rw [hfold]
  · show (List.take n ((List.foldl (fun acc chunk => (candStep acc.2 (max n 10) acc.1 chunk, acc.2))
      (candInit, m) (chunksOf (toLowerList s))).1.map (fun e => post_process_candidate e.1)),
      (List.foldl (fun acc chunk => (candStep acc.2 (max n 10) acc.1 chunk, acc.2))
        (candInit, m) (chunksOf (toLowerList s))).2).1 = candidates m s n
    rw [hfold]
    rfl
  · unfold rejoinSt splitSt
    cases hs : split m s <;> rfl
  · unfold rejoinSt splitSt rejoin
    cases hs : split m s <;> rfl

/-! ### Construction (claim C3) -/

lemma costEntries_ok (lg : ℤ → ℤ) (total : ℕ) (h2 : 2 ≤ total)
    (hlg : ∀ x : ℤ, 0 < x → (lg x ≤ 0 ↔ x ≤ 1)) :
    ∀ (ws : List (List Char)) (i : ℕ), ∃ entries, costEntries lg total i ws = Except.ok entries := by
  intro ws
  induction ws with
  | nil => intro i; exact ⟨[], rfl⟩
  | cons w ws ih =>
    intro i
    obtain ⟨entries, he⟩ := ih (i + 1)
    have hpos : (0 : ℤ) < (total : ℤ) := by exact_mod_cast Nat.lt_of_lt_of_le Nat.zero_lt_two h2
    have hlgpos : 0 < lg (total : ℤ) := by
      by_contra h
      have h1 := (hlg (total : ℤ) hpos).mp (not_lt.mp h)
      have : (2 : ℤ) ≤ (total : ℤ) := by exact_mod_cast h2
      omega
    have harg : ¬ ((i : ℤ) + 1) * lg (total : ℤ) ≤ 0 := by
      push_neg
      apply mul_pos _ hlgpos
      positivity
    refine ⟨(w, lg (((i : ℤ) + 1) * lg (total : ℤ))) :: entries, ?_⟩
    unfold costEntries
    rw [if_neg (not_le.mpr hpos), if_neg harg, he]

lemma costEntries_one_word (lg : ℤ → ℤ)
    (hlg : ∀ x : ℤ, 0 < x → (lg x ≤ 0 ↔ x ≤ 1)) (w : List Char) :
    costEntries lg 1 0 [w] = Except.error "math domain error".toList := by
  have h1 : lg ((1 : ℕ) : ℤ) ≤ 0 := by
    have := (hlg 1 one_pos).mpr (le_refl 1)
    simpa using this
  have harg : (((0 : ℕ) : ℤ) + 1) * lg ((1 : ℕ) : ℤ) ≤ 0 := by
    have he : (((0 : ℕ) : ℤ) + 1) * lg ((1 : ℕ) : ℤ) = lg ((1 : ℕ) : ℤ) := by
      norm_num
    rw [he]
    exact h1
  unfold costEntries
  rw [if_neg (by norm_num), if_pos harg]

/-- Claim C3: with `math.log` abstracted by any function `lg` that is
nonpositive exactly on `(0, 1]` of its positive domain (as the real
logarithm is), the model construction succeeds if and only if the word list
left after blacklist removal and add-word processing has at least two words.
For one word the cost expression `log((0+1)*log(1))` hits the log domain
error; for zero words `max()` over the empty sequence fails; in neither case
is a model with degenerate costs produced. -/
theorem c3_construction_requires_two_words (lg : ℤ → ℤ)
    (hlg : ∀ x : ℤ, 0 < x → (lg x ≤ 0 ↔ x ≤ 1))
    (words blacklist addWords : List (List Char)) (addToTop overwrite : Bool) :
    (∃ md, buildModel lg (processWords words blacklist addWords addToTop overwrite) =
      Except.ok md) ↔
    2 ≤ (processWords words blacklist addWords addToTop overwrite).length := by
  set final := processWords words blacklist addWords addToTop overwrite with hfinal
  constructor
  · rintro ⟨md, hmd⟩
    by_contra hlen
    push_neg at hlen
    match hf : final with
    | [] =>
      simp [buildModel, costEntries] at hmd
    | w :: ws =>
      have hws : ws = [] := by
        simp only [List.length_cons] at hlen
        have : ws.length = 0 := by omega
        exact List.eq_nil_of_length_eq_zero this
      subst hws
      unfold buildModel at hmd
      rw [show ([w] : List (List Char)).length = 1 from rfl,
        costEntries_one_word lg hlg w] at hmd
      exact absurd hmd (by simp)
  · intro h2
    obtain ⟨entries, he⟩ := costEntries_ok lg final.length h2 hlg final 0
    have hne : final.isEmpty = false := by
      cases hf : final
      · rw [hf] at h2
        simp at h2
      · rfl
    unfold buildModel
    rw [he]
    simp only [hne, Bool.false_eq_true, if_false]
    exact ⟨_, rfl⟩

/-- Abstract stand-in for `math.log` used by the construction witness:
`x - 1` has the required sign behaviour on the positive domain. -/
def demoLg : ℤ → ℤ := fun x => x - 1

theorem c3_construction_requires_two_words_witness :
    (∀ x : ℤ, 0 < x → (demoLg x ≤ 0 ↔ x ≤ 1)) ∧
    ((∃ md, buildModel demoLg (processWords [['a'], ['b']] [] [] false false) =
      Except.ok md) ↔
    2 ≤ (processWords [['a'], ['b']] [] [] false false).length) :=
  ⟨fun x _ => by unfold demoLg; omega,
    c3_construction_requires_two_words demoLg (fun x _ => by unfold demoLg; omega)
      [['a'], ['b']] [] [] false false⟩

/-! ### Claim C5: the merge rules during backtracking -/

/-- Counterexample to claim C5 as stated.  Over a model whose dictionary is
exactly `a ↦ 2, b ↦ 2, 'sb ↦ 1, c ↦ 1` (window 3), the backtracking pass on
`"a'sb'c"` emits, right to left, `c`, `'`, `'sb`, `a`.  The claim predicts
(1) that the lone-apostrophe token is discarded as a boundary and fused into
its neighbour — but the code only skips the merge rules when the *current*
token is a lone apostrophe and keeps it as its own output token; and
(2) that a previous token *beginning* with `'s` (here `'sb`) is fused with
the current token `a` — but the code requires the previous token to be
exactly `'s`, so no fusion happens.  The actual output keeps `'` standalone
and `a`, `'sb` separate. -/
theorem c5_counterexample :
    split demoModel ['a', '\'', 's', 'b', '\'', 'c'] =
      some [['a'], ['\'', 's', 'b'], ['\''], ['c']] ∧
    ['\''] ∈ [['a'], ['\'', 's', 'b'], ['\''], ['c']] ∧
    ¬ ['a', '\'', 's', 'b'] ∈ [['a'], ['\'', 's', 'b'], ['\''], ['c']] := by
  refine ⟨by decide, by decide, by decide⟩

/-- Claim C5 (amended): during the backtracking pass of `_split`, merging is
skipped entirely when the *current* token is exactly a lone apostrophe,
which is then emitted as its own token; otherwise the current token is
prepended onto the previously emitted token (the one to its right in final
order) exactly when that token is exactly `'s`, or the current token's last
character and the previous token's first character are both digits.
Formally: the whole backtracking loop equals the fold of the token-level
merge rule `mergeStepTok` over the raw chosen segments, and `mergeStepTok`
satisfies the three amended rules. -/
theorem c5_merge_rules_amended (m : LanguageModel) (s : List Char) (hmw : 1 ≤ m.maxword) :
    (∃ segs, bestSegs m s = some segs ∧
      splitChunk m s = some (segs.foldr mergeStepTok [])) ∧
    (∀ out, mergeStepTok ['\''] out = ['\''] :: out) ∧
    (∀ t prev rest, ¬ t = ['\''] →
      (prev = ['\'', 's'] ∨ ((t.getLastD ' ').isDigit ∧ (prev.headD ' ').isDigit)) →
      mergeStepTok t (prev :: rest) = (t ++ prev) :: rest) ∧
    (∀ t prev rest, ¬ t = ['\''] →
      ¬ (prev = ['\'', 's'] ∨ ((t.getLastD ' ').isDigit ∧ (prev.headD ' ').isDigit)) →
      mergeStepTok t (prev :: rest) = t :: prev :: rest) := by
  have hm : ∀ (t prev : List Char) (rest : List (List Char)), ¬ t = ['\''] →
      mergeStepTok t (prev :: rest) =
        if prev = ['\'', 's'] ∨ ((t.getLastD ' ').isDigit ∧ (prev.headD ' ').isDigit) then
          (t ++ prev) :: rest
        else t :: prev :: rest := by
    intro t prev rest h1
    simp [mergeStepTok, h1]
  refine ⟨?_, ?_, ?_, ?_⟩
  · obtain ⟨segs, h1, _, _, h4⟩ := splitChunk_eq m s hmw
    exact ⟨segs, h1, h4⟩
  · intro out
    simp [mergeStepTok]
  · intro t prev rest h1 h2
    rw [hm t prev rest h1, if_pos h2]
  · intro t prev rest h1 h2
    rw [hm t prev rest h1, if_neg h2]

theorem c5_merge_rules_amended_witness :
    1 ≤ demoModel.maxword ∧
    ((∃ segs, bestSegs demoModel ['a', '\'', 'b'] = some segs ∧
      splitChunk demoModel ['a', '\'', 'b'] = some (segs.foldr mergeStepTok [])) ∧
    (∀ out, mergeStepTok ['\''] out = ['\''] :: out) ∧
    (∀ t prev rest, ¬ t = ['\''] →
      (prev = ['\'', 's'] ∨ ((t.getLastD ' ').isDigit ∧ (prev.headD ' ').isDigit)) →
      mergeStepTok t (prev :: rest) = (t ++ prev) :: rest) ∧
    (∀ t prev rest, ¬ t = ['\''] →
      ¬ (prev = ['\'', 's'] ∨ ((t.getLastD ' ').isDigit ∧ (prev.headD ' ').isDigit)) →
      mergeStepTok t (prev :: rest) = t :: prev :: rest)) :=
  ⟨by decide, c5_merge_rules_amended demoModel ['a', '\'', 'b'] (by decide)⟩

/-! ### Claim C9: the rejoin spacing rules -/

lemma ite_not_swap {α : Type} (b : Bool) (x y : α) :
    (if (!b) = true then x else y) = (if b = true then y else x) := by
  cases b <;> rfl

lemma bool_noSp_eq (a b c d e f : Bool) :
    (if a = true then true else if b = true then true else if (c || d) = true then true
      else if (e || f) = true then true else false) = (a || b || c || d || e || f) := by
  cases a <;> cases b <;> cases c <;> cases d <;> cases e <;> cases f <;> rfl

lemma rejoinStep_last (m : LanguageModel) (tokens : List (List Char)) (i : ℕ)
    (acc : List (List Char) × Bool) (hni : ¬ i < tokens.length - 1) :
    rejoinStep m tokens tokens.length acc i =
      (acc.1 ++ [tokens.getD i []],
       if tokens.getD i [] == ['"'] then !acc.2 else acc.2) := by
  simp only [rejoinStep]
  rw [if_neg hni]

lemma rejoinStep_mid (m : LanguageModel) (tokens : List (List Char)) (i : ℕ)
    (acc : List (List Char) × Bool) (hni : i < tokens.length - 1) :
    rejoinStep m tokens tokens.length acc i =
      ((if ((tokens.getD i [] == ['"'] && !acc.2) ||
            (tokens.getD (i + 1) [] == ['"'] &&
              (if tokens.getD i [] == ['"'] then !acc.2 else acc.2)) ||
            m.noSpaceAfter.contains (tokens.getD i []) ||
            m.noSpaceBefore.contains (tokens.getD (i + 1) []) ||
            isWsRun (tokens.getD i []) || isWsRun (tokens.getD (i + 1) []))
        then acc.1 ++ [tokens.getD i []]
        else acc.1 ++ [tokens.getD i []] ++ [[' ']]),
       if tokens.getD i [] == ['"'] then !acc.2 else acc.2) := by
  simp only [rejoinStep]
  rw [if_pos hni, ite_not_swap]

lemma specSpaceParts_cons (m : LanguageModel) (t t2 : List Char)
    (rest : List (List Char)) (inq : Bool) :
    specSpaceParts m (t :: t2 :: rest) inq =
      if ((t == ['"'] && !inq) ||
          (t2 == ['"'] && (if t == ['"'] then !inq else inq)) ||
          m.noSpaceAfter.contains t || m.noSpaceBefore.contains t2 ||
          isWsRun t || isWsRun t2)
      then t :: specSpaceParts m (t2 :: rest) (if t == ['"'] then !inq else inq)
      else t :: [' '] :: specSpaceParts m (t2 :: rest) (if t == ['"'] then !inq else inq) := by
  show (if (if (t == ['"'] && !inq) = true then true
      else if (t2 == ['"'] && (if t == ['"'] then !inq else inq)) = true then true
      else if (m.noSpaceAfter.contains t || m.noSpaceBefore.contains t2) = true then true
      else if (isWsRun t || isWsRun t2) = true then true else false) = true
    then t :: specSpaceParts m (t2 :: rest) (if t == ['"'] then !inq else inq)
    else t :: [' '] :: specSpaceParts m (t2 :: rest) (if t == ['"'] then !inq else inq)) = _
  rw [bool_noSp_eq]

/-- The indexed `enumerate` loop of `rejoin`, run over the index range
`[i, n)`, appends exactly the spec-side spacing of the token suffix from
`i`. -/
lemma rejoin_fold_spec (m : LanguageModel) (tokens : List (List Char)) :
    ∀ cnt i (parts : List (List Char)) (inq : Bool), i + cnt = tokens.length →
    ((List.range' i cnt).foldl (rejoinStep m tokens tokens.length) (parts, inq)).1 =
      parts ++ specSpaceParts m (tokens.drop i) inq := by
  intro cnt
  induction cnt with
  | zero =>
    intro i parts inq hi
    have hieq : i = tokens.length := by omega
    subst hieq
    rw [List.drop_length]
    show parts = parts ++ specSpaceParts m [] inq
    simp [specSpaceParts]
  | succ cnt ih =>
    intro i parts inq hi
    have hin : i < tokens.length := by omega
    cases hd : tokens.drop i with
    | nil =>
      exfalso
      have hl := List.length_drop i tokens
      rw [hd] at hl
      simp only [List.length_nil] at hl
      omega
    | cons t d' =>
      have hlen' : d'.length = cnt := by
        have hl := List.length_drop i tokens
        rw [hd] at hl
        simp only [List.length_cons] at hl
        omega
      have htok : tokens.getD i [] = t := by
        have h0 := List.getElem?_drop tokens i 0
        rw [hd] at h0
        simp only [Nat.add_zero] at h0
        rw [List.getD_eq_getElem?_getD, ← h0, List.getElem?_cons_zero]
        rfl
      rw [List.range'_succ]
      simp only [List.foldl_cons]
      cases d' with
      | nil =>
        have hcnt : cnt = 0 := by simpa using hlen'.symm
        subst hcnt
        rw [rejoinStep_last m tokens i (parts, inq) (by omega)]
        rw [htok]
        show parts ++ [t] = parts ++ specSpaceParts m [t] inq
        rfl
      | cons t2 d'' =>
        have hd2 : tokens.drop (i + 1) = t2 :: d'' := by
          have ht := List.tail_drop tokens i
          rw [hd] at ht
          simpa using ht.symm
        have hni : i < tokens.length - 1 := by
          simp only [List.length_cons] at hlen'
          omega
        rw [rejoinStep_mid m tokens i (parts, inq) hni]
        have hnext : tokens.getD (i + 1) [] = t2 := by
          have h0 := List.getElem?_drop tokens (i + 1) 0
          rw [hd2] at h0
          simp only [Nat.add_zero] at h0
          rw [List.getD_eq_getElem?_getD, ← h0, List.getElem?_cons_zero]
          rfl
        rw [htok, hnext, specSpaceParts_cons]
        have harith : i + 1 + cnt = tokens.length := by omega
        cases hSs : ((t == ['"'] && !inq) ||
            (t2 == ['"'] && (if t == ['"'] then !inq else inq)) ||
            m.noSpaceAfter.contains t || m.noSpaceBefore.contains t2 ||
            isWsRun t || isWsRun t2)
        · simp only [hSs, Bool.false_eq_true, if_false]
          rw [ih (i + 1) (parts ++ [t] ++ [[' ']]) (if t == ['"'] then !inq else inq) harith]
          rw [hd2]
          simp
        · simp only [hSs, if_pos]
          rw [ih (i + 1) (parts ++ [t]) (if t == ['"'] then !inq else inq) harith]
          rw [hd2]
          simp

lemma rejoinTokens_eq_spec (m : LanguageModel) (tokens : List (List Char)) :
    rejoinTokens m tokens = (specSpaceParts m tokens false).flatten := by
  cases tokens with
  | nil => rfl
  | cons t ts =>
    show (if (t :: ts).isEmpty = true then []
      else (((List.range (t :: ts).length).foldl
        (rejoinStep m (t :: ts) (t :: ts).length) ([], false)).1).flatten) = _
    rw [if_neg (by simp)]
    rw [List.range_eq_range']
    have h := rejoin_fold_spec m (t :: ts) (t :: ts).length 0 [] false (by omega)
    simp only [List.drop_zero, List.nil_append] at h
    rw [h]

/-- Claim C9: `rejoin(text)` equals the concatenation of the tokens of
`split(text)` with exactly one space inserted between two consecutive
tokens unless one of the four rules applies, tested in order: (1) the
current token is a double quote opening a quoted span; (2) the next token is
a double quote closing the current quoted span; (3) the current token is in
`noSpaceAfter` or the next token is in `noSpaceBefore`; (4) either token is
whitespace.  The inside-double-quotes flag starts `false` and toggles on
every literal double-quote token (`specSpaceParts` is the rule-by-rule
spec-side rejoiner; the embedded `rejoin` runs the indexed source loop). -/
theorem c9_rejoin_spacing (m : LanguageModel) (s : List Char) :
    rejoin m s = (split m s).map (fun ts => (specSpaceParts m ts false).flatten) := by
  unfold rejoin
  cases hs : split m s with
  | none => rfl
  | some ts => simp [rejoinTokens_eq_spec]

end WordNinja
